import Mathlib

/-!
Shallow embedding of `src/dynamic_pricing_gui.py` (a multi-armed-bandit
simulator): the reward environment `AdBandit`, the three algorithms
`epsilon_greedy`, `ucb1`, `thompson_sampling`, and the cumulative
reward/regret accounting of `BanditApp.run_simulation`.

Modelling conventions:
- NumPy float arrays become `List ℚ` (exact arithmetic stands in for the
  reals; every quantity the claims touch is produced by `+ - * /` on
  machine numbers).
- Randomness is passed in explicitly: each call to `np.random.rand()`
  reads a caller-supplied stream `ℕ → ℚ` (one entry per step),
  `np.random.randint(K)` reduces a raw natural draw modulo `K` (failing
  for `K = 0`, as NumPy raises `ValueError` there), and
  `np.random.beta(alpha, beta)` at step `t` is a stream `ℕ → ℕ → ℚ`
  (step, arm ↦ sampled value).
- Fallible operations (NumPy fancy indexing, `argmax` of an empty array,
  `randint(0)`) return `Option`; `none` is the embedding of a raised
  Python exception, so "the run fails" is `= none` and "the run
  completes" is `= some _`.
- `np.sqrt (2 * np.log (t+1) / count)` in UCB1 is an irrational-valued
  expression; `ucb1` is therefore parametrised by the exploration-bonus
  function `bonus : ℕ → ℚ → ℚ` (step, count ↦ bonus).  Every theorem
  about `ucb1` below is proved for an arbitrary `bonus`, hence in
  particular for the UCB1 bonus.
-/

/-- NumPy integer indexing into a 1-d array: a non-negative index `i` is
valid when `i < len`, a negative index wraps (`l[i] = l[len + i]`) when
`-len ≤ i`, and anything else raises `IndexError` (here: `none`). -/
def npGet (l : List ℚ) (i : ℤ) : Option ℚ :=
  if 0 ≤ i then l.get? i.toNat
  else if -(l.length : ℤ) ≤ i then l.get? (i + l.length).toNat
  else none

/-- Accumulator of `np.argmax` (first maximum): scan the tail keeping the
index of the strictly largest element seen so far. -/
def argmaxAux : List ℚ → ℕ → ℕ → ℚ → ℕ
  | [], _, bestIdx, _ => bestIdx
  | x :: xs, i, bestIdx, bestVal =>
      if bestVal < x then argmaxAux xs (i + 1) i x
      else argmaxAux xs (i + 1) bestIdx bestVal

/-- Embedding of `np.argmax` on a 1-d array: index of the first maximal element;
raises (`none`) on an empty array. -/
def npArgmax (l : List ℚ) : Option ℕ :=
  match l with
  | [] => none
  | x :: xs => some (argmaxAux xs 1 0 x)

/-- Embedding of `np.max` on a 1-d array: raises (`none`) on an empty array. -/
def npMax (l : List ℚ) : Option ℚ :=
  match l with
  | [] => none
  | x :: xs => some (xs.foldl max x)

/-- Embedding of `class AdBandit`: ad labels and true click-through rates.
`__init__` performs no validation whatsoever. -/
structure AdBandit where
  ads : List String
  ctrs : List ℚ
deriving Repr

/-- Field `self.K = len(ads)`. -/
def AdBandit.K (env : AdBandit) : ℕ := env.ads.length

/-- Method `AdBandit.pull(arm)`: draw `u` uniform in `[0,1)` (supplied here),
return `1 if u < self.ctrs[arm] else 0`.  Indexing follows NumPy
(negative wrap-around, `IndexError` out of range). -/
def AdBandit.pull (env : AdBandit) (arm : ℤ) (u : ℚ) : Option ℕ :=
  (npGet env.ctrs arm).map (fun p => if u < p then 1 else 0)

/-- Method `AdBandit.expected_rewards()`: the true CTR vector. -/
def AdBandit.expected_rewards (env : AdBandit) : List ℚ := env.ctrs

/-- Running state of `epsilon_greedy` / `ucb1`: per-arm pull counts and
incremental-mean value estimates, plus the trace arrays built so far
(`rewards[t]`, `chosen[t]` written in step order). -/
structure MeanState where
  counts : List ℚ
  values : List ℚ
  rewards : List ℕ
  chosen : List ℕ
deriving Repr

/-- Shared tail of one `epsilon_greedy`/`ucb1` loop iteration once the
arm is selected: `r = env.pull(arm)`, `counts[arm] += 1`,
`values[arm] += (r - values[arm]) / counts[arm]` (with the already
incremented count, as in the source), `rewards[t] = r`, `chosen[t] = arm`.
Out-of-range array access raises (`none`). -/
def meanUpdate (env : AdBandit) (u : ℚ) (arm : ℕ) (s : MeanState) :
    Option MeanState :=
  (env.pull arm u).bind fun r =>
  (s.counts.get? arm).bind fun c0 =>
  (s.values.get? arm).bind fun v0 =>
  some { counts := s.counts.set arm (c0 + 1),
         values := s.values.set arm (v0 + ((r : ℚ) - v0) / (c0 + 1)),
         rewards := s.rewards ++ [r],
         chosen := s.chosen ++ [arm] }

/-- Embedding of `np.random.randint(K)` with raw draw `n`: uniform in `[0,K)`;
NumPy raises `ValueError` when `K = 0`. -/
def npRandint (K : ℕ) (n : ℕ) : Option ℕ :=
  if K = 0 then none else some (n % K)

/-- One step of `epsilon_greedy` at step `t`:
`arm = np.random.randint(K) if np.random.rand() < eps else np.argmax(values)`,
then the shared pull-and-update tail.  `e` is this step's uniform draw for
the ε test, `n` the raw `randint` draw, `u` the uniform draw inside
`env.pull`. -/
def egStep (env : AdBandit) (eps : ℚ) (e : ℚ) (n : ℕ) (u : ℚ)
    (s : MeanState) : Option MeanState :=
  (if e < eps then npRandint env.K n else npArgmax s.values).bind fun arm =>
  meanUpdate env u arm s

/-- The `for t in range(T)` loop of `epsilon_greedy`, with `t` the current
step index and `fuel` the remaining number of steps: streams `e`, `n`, `u`
supply the random draws of step `t`. -/
def egLoop (env : AdBandit) (eps : ℚ) (e : ℕ → ℚ) (n : ℕ → ℕ)
    (u : ℕ → ℚ) : ℕ → ℕ → MeanState → Option MeanState
  | _, 0, s => some s
  | t, fuel + 1, s =>
      (egStep env eps (e t) (n t) (u t) s).bind fun s1 =>
      egLoop env eps e n u (t + 1) fuel s1

/-- Initial state of `epsilon_greedy`: `counts = np.zeros(K)`,
`values = np.zeros(K)`, empty trace. -/
def egInit (K : ℕ) : MeanState :=
  { counts := List.replicate K 0, values := List.replicate K 0,
    rewards := [], chosen := [] }

/-- Embedding of `epsilon_greedy(env, T, eps)`: run the loop for `T` steps from the
all-zeros state and return `(rewards, chosen)`. -/
def epsilon_greedy (env : AdBandit) (T : ℕ) (eps : ℚ) (e : ℕ → ℚ)
    (n : ℕ → ℕ) (u : ℕ → ℚ) : Option (List ℕ × List ℕ) :=
  (egLoop env eps e n u 0 T (egInit env.K)).map fun s => (s.rewards, s.chosen)

/-- One step of `ucb1` at step `t`:
`ucb = values + np.sqrt(2 * np.log(t+1) / counts); arm = np.argmax(ucb)`,
then the shared pull-and-update tail.  The exploration bonus
`np.sqrt(2 * np.log(t+1) / counts[a])` is the caller-supplied
`bonus t counts[a]` (it is irrational in general; all theorems hold for
every `bonus`). -/
def ucbStep (env : AdBandit) (bonus : ℕ → ℚ → ℚ) (t : ℕ) (u : ℚ)
    (s : MeanState) : Option MeanState :=
  (npArgmax (List.zipWith (fun v c => v + bonus t c) s.values s.counts)).bind
    fun arm => meanUpdate env u arm s

/-- The `for t in range(T)` loop of `ucb1`. -/
def ucbLoop (env : AdBandit) (bonus : ℕ → ℚ → ℚ) (u : ℕ → ℚ) :
    ℕ → ℕ → MeanState → Option MeanState
  | _, 0, s => some s
  | t, fuel + 1, s =>
      (ucbStep env bonus t (u t) s).bind fun s1 =>
      ucbLoop env bonus u (t + 1) fuel s1

/-- Initial state of `ucb1`: `counts = np.ones(K)` (not zeros!),
`values = np.zeros(K)`, empty trace. -/
def ucbInit (K : ℕ) : MeanState :=
  { counts := List.replicate K 1, values := List.replicate K 0,
    rewards := [], chosen := [] }

/-- Embedding of `ucb1(env, T)`: run the loop for `T` steps from counts-all-one and
return `(rewards, chosen)`. -/
def ucb1 (env : AdBandit) (T : ℕ) (bonus : ℕ → ℚ → ℚ) (u : ℕ → ℚ) :
    Option (List ℕ × List ℕ) :=
  (ucbLoop env bonus u 0 T (ucbInit env.K)).map fun s => (s.rewards, s.chosen)

/-- Running state of `thompson_sampling`: per-arm Beta pseudo-counts
`alpha`, `beta` and the trace built so far. -/
structure TSState where
  alpha : List ℚ
  beta : List ℚ
  rewards : List ℕ
  chosen : List ℕ
deriving Repr

/-- One step of `thompson_sampling` at step `t`:
`theta = np.random.beta(alpha, beta); arm = np.argmax(theta)`, then
`r = env.pull(arm)`, record the trace entry, `alpha[arm] += r`,
`beta[arm] += (1 - r)`.  The Beta samples are the caller-supplied stream
`theta t a` (one value per arm). -/
def tsStep (env : AdBandit) (theta : ℕ → ℕ → ℚ) (t : ℕ) (u : ℚ)
    (s : TSState) : Option TSState :=
  (npArgmax ((List.range s.alpha.length).map (theta t))).bind fun arm =>
  (env.pull arm u).bind fun r =>
  (s.alpha.get? arm).bind fun a0 =>
  (s.beta.get? arm).bind fun b0 =>
  some { alpha := s.alpha.set arm (a0 + (r : ℚ)),
         beta := s.beta.set arm (b0 + (1 - (r : ℚ))),
         rewards := s.rewards ++ [r],
         chosen := s.chosen ++ [arm] }

/-- The `for t in range(T)` loop of `thompson_sampling`. -/
def tsLoop (env : AdBandit) (theta : ℕ → ℕ → ℚ) (u : ℕ → ℚ) :
    ℕ → ℕ → TSState → Option TSState
  | _, 0, s => some s
  | t, fuel + 1, s =>
      (tsStep env theta t (u t) s).bind fun s1 =>
      tsLoop env theta u (t + 1) fuel s1

/-- Initial state of `thompson_sampling`: `alpha = np.ones(K)`,
`beta = np.ones(K)`, empty trace. -/
def tsInit (K : ℕ) : TSState :=
  { alpha := List.replicate K 1, beta := List.replicate K 1,
    rewards := [], chosen := [] }

/-- Embedding of `thompson_sampling(env, T)`: run the loop for `T` steps from the
uniform prior and return `(rewards, chosen)`. -/
def thompson_sampling (env : AdBandit) (T : ℕ) (theta : ℕ → ℕ → ℚ)
    (u : ℕ → ℚ) : Option (List ℕ × List ℕ) :=
  (tsLoop env theta u 0 T (tsInit env.K)).map fun s => (s.rewards, s.chosen)

/-- Embedding of `np.cumsum`: entry `i` is the sum of the first `i + 1` entries. -/
def cumsum (l : List ℚ) : List ℚ :=
  (List.range l.length).map fun i => ((l.take (i + 1)).sum)

/-- Regret accounting of `BanditApp.run_simulation`:
`np.cumsum(optimal - rewards)` with `optimal = np.max(env.expected_rewards())`
held fixed across all steps. -/
def regretSeries (optimal : ℚ) (rewards : List ℚ) : List ℚ :=
  cumsum (rewards.map fun r => optimal - r)

/-- Trace measurement: total reward collected on arm `a` — the sum of the
rewards at the positions of the trace whose chosen arm is `a`. -/
def rewardOn (rewards chosen : List ℕ) (a : ℕ) : ℕ :=
  (((rewards.zip chosen).filter (fun p => p.2 = a)).map Prod.fst).sum

theorem rewardOn_nil (a : ℕ) : rewardOn [] [] a = 0 := rfl

theorem rewardOn_append (rw ch : List ℕ) (r arm a : ℕ)
    (h : rw.length = ch.length) :
    rewardOn (rw ++ [r]) (ch ++ [arm]) a =
      rewardOn rw ch a + (if arm = a then r else 0) := by
  unfold rewardOn
  rw [List.zip_append h, List.filter_append]
  by_cases harm : arm = a <;>
    simp [harm, List.filter_cons, List.map_append]

theorem count_append_singleton (ch : List ℕ) (arm a : ℕ) :
    (ch ++ [arm]).count a = ch.count a + (if arm = a then 1 else 0) := by
  by_cases harm : arm = a <;> simp [List.count_append, List.count_singleton, harm]

/-- The accumulator of `argmaxAux` stays bounded: starting from a best index
below the running offset, the result stays below offset plus the number
of remaining elements. -/
theorem argmaxAux_lt (xs : List ℚ) : ∀ (i b : ℕ) (v : ℚ), b < i →
    argmaxAux xs i b v < i + xs.length := by
  induction xs with
  | nil => intro i b v hb; simpa [argmaxAux] using hb
  | cons x xs ih =>
      intro i b v hb
      simp only [argmaxAux, List.length_cons]
      by_cases hx : v < x
      · simpa [hx, Nat.add_comm, Nat.add_left_comm] using
          ih (i + 1) i x (Nat.lt_succ_self i)
      · simpa [hx, Nat.add_comm, Nat.add_left_comm] using
          ih (i + 1) b v (Nat.lt_succ_of_lt hb)

/-- Any index returned by `np.argmax` is in range. -/
theorem npArgmax_lt {l : List ℚ} {a : ℕ} (h : npArgmax l = some a) :
    a < l.length := by
  match l, h with
  | x :: xs, h =>
      simp only [npArgmax, Option.some.injEq] at h
      subst h
      simpa [Nat.add_comm] using argmaxAux_lt xs 1 0 x Nat.one_pos

/-- On any non-empty array, `np.argmax` succeeds with an in-range index. -/
theorem npArgmax_isSome {l : List ℚ} (h : l ≠ []) :
    ∃ a, npArgmax l = some a ∧ a < l.length := by
  match l, h with
  | x :: xs, _ =>
      refine ⟨argmaxAux xs 1 0 x, rfl, ?_⟩
      simpa [Nat.add_comm] using argmaxAux_lt xs 1 0 x Nat.one_pos

/-- Indexing by a natural number is plain list lookup. -/
theorem npGet_natCast (l : List ℚ) (a : ℕ) : npGet l (a : ℤ) = l.get? a := by
  simp [npGet, Int.toNat_ofNat]

/-- A successful pull returns a Bernoulli reward: `0` or `1`. -/
theorem pull_mem {env : AdBandit} {arm : ℤ} {u : ℚ} {r : ℕ}
    (h : env.pull arm u = some r) : r = 0 ∨ r = 1 := by
  rcases Option.map_eq_some'.mp h with ⟨p, _, hp⟩
  by_cases hu : u < p <;> simp [hu] at hp <;> omega

/-- A pull at a natural-number arm succeeds exactly on an in-range arm,
and then computes `1 if u < p else 0` at the arm's true probability. -/
theorem pull_nat_eq_some_iff (env : AdBandit) (a : ℕ) (u : ℚ) (r : ℕ) :
    env.pull (a : ℤ) u = some r ↔
      ∃ p, env.ctrs.get? a = some p ∧ r = (if u < p then 1 else 0) := by
  rw [AdBandit.pull, npGet_natCast]
  constructor
  · intro h
    rcases Option.map_eq_some'.mp h with ⟨p, hp, hr⟩
    exact ⟨p, hp, hr.symm⟩
  · rintro ⟨p, hp, hr⟩
    exact Option.map_eq_some'.mpr ⟨p, hp, hr.symm⟩

/-- Loop invariant of the two incremental-mean algorithms, with `c0` the
initial per-arm count (`0` for `epsilon_greedy`, `1` for `ucb1`):
state arrays have length `K`, the trace arrays run in lock step with
Bernoulli rewards and in-range arms, each arm's count is its number of
pulls plus `c0`, and each arm's value estimate times its count equals the
total reward collected on that arm. -/
def MeanStateInv (K : ℕ) (c0 : ℚ) (s : MeanState) : Prop :=
  s.counts.length = K ∧
  s.values.length = K ∧
  s.rewards.length = s.chosen.length ∧
  (∀ r ∈ s.rewards, r = 0 ∨ r = 1) ∧
  (∀ a ∈ s.chosen, a < K) ∧
  (∀ a, a < K →
    s.counts.get? a = some ((s.chosen.count a : ℚ) + c0) ∧
    (∀ v, s.values.get? a = some v →
      v * ((s.chosen.count a : ℚ) + c0) = (rewardOn s.rewards s.chosen a : ℚ)))

theorem meanStateInv_init_eg (K : ℕ) : MeanStateInv K 0 (egInit K) := by
  refine ⟨by simp [egInit], by simp [egInit], rfl, by simp [egInit],
    by simp [egInit], ?_⟩
  intro a ha
  simp [egInit, List.getElem?_replicate, ha, rewardOn]

theorem meanStateInv_init_ucb (K : ℕ) : MeanStateInv K 1 (ucbInit K) := by
  refine ⟨by simp [ucbInit], by simp [ucbInit], rfl, by simp [ucbInit],
    by simp [ucbInit], ?_⟩
  intro a ha
  simp [ucbInit, List.getElem?_replicate, ha, rewardOn]

/-- Unfolding of a successful `meanUpdate`. -/
theorem meanUpdate_eq_some_iff {env : AdBandit} {u : ℚ} {arm : ℕ}
    {s s' : MeanState} :
    meanUpdate env u arm s = some s' ↔
      ∃ r c v, env.pull arm u = some r ∧ s.counts.get? arm = some c ∧
        s.values.get? arm = some v ∧
        s' = { counts := s.counts.set arm (c + 1),
               values := s.values.set arm (v + ((r : ℚ) - v) / (c + 1)),
               rewards := s.rewards ++ [r],
               chosen := s.chosen ++ [arm] } := by
  simp only [meanUpdate, Option.bind_eq_some, Option.some.injEq]
  constructor
  · rintro ⟨r, hr, c, hc, v, hv, hs⟩
    exact ⟨r, c, v, hr, hc, hv, hs.symm⟩
  · rintro ⟨r, c, v, hr, hc, hv, hs⟩
    exact ⟨r, hr, c, hc, v, hv, hs.symm⟩

/-- A successful `meanUpdate` preserves the invariant and appends one
entry to each trace array. -/
theorem meanUpdate_preserves {K : ℕ} {c0 : ℚ} (hc0 : 0 ≤ c0)
    {env : AdBandit} {u : ℚ} {arm : ℕ} {s s' : MeanState}
    (h : meanUpdate env u arm s = some s') (hs : MeanStateInv K c0 s) :
    MeanStateInv K c0 s' ∧
      ∃ r, s'.rewards = s.rewards ++ [r] ∧ s'.chosen = s.chosen ++ [arm] := by
  obtain ⟨hcl, hvl, htl, hrw, hch, harm⟩ := hs
  obtain ⟨r, c, v, hpull, hc, hv, hs'⟩ := meanUpdate_eq_some_iff.mp h
  have harmc : arm < s.counts.length := (List.get?_eq_some.mp hc).1
  have harmv : arm < s.values.length := (List.get?_eq_some.mp hv).1
  have harmK : arm < K := hcl ▸ harmc
  obtain ⟨hceq, hveq⟩ := harm arm harmK
  have hcc : c = (s.chosen.count arm : ℚ) + c0 := by
    rw [hc] at hceq; exact (Option.some.injEq _ _ ▸ hceq :)
  have hcnn : (0 : ℚ) ≤ c := hcc ▸ add_nonneg (Nat.cast_nonneg _) hc0
  have hcne : c + 1 ≠ 0 := by positivity
  subst hs'
  refine ⟨⟨by simpa using hcl, by simpa using hvl, by simp [htl], ?_, ?_, ?_⟩,
    r, rfl, rfl⟩
  · intro x hx
    rcases List.mem_append.mp hx with hx | hx
    · exact hrw x hx
    · rcases List.mem_singleton.mp hx with rfl
      exact pull_mem hpull
  · intro a ha
    rcases List.mem_append.mp ha with ha | ha
    · exact hch a ha
    · rcases List.mem_singleton.mp ha with rfl
      exact harmK
  · intro a ha
    by_cases haa : a = arm
    · subst haa
      have hcount : (s.chosen ++ [a]).count a = s.chosen.count a + 1 := by
        rw [count_append_singleton, if_pos rfl]
      constructor
      · simp only [MeanState.counts, List.get?_eq_getElem?,
          List.getElem?_set_self harmc, hcount, Option.some.injEq]
        push_cast
        rw [hcc]; ring
      · intro w hw
        simp only [MeanState.values, List.get?_eq_getElem?,
          List.getElem?_set_self harmv, Option.some.injEq] at hw
        have hrOn : rewardOn (s.rewards ++ [r]) (s.chosen ++ [a]) a =
            rewardOn s.rewards s.chosen a + r := by
          rw [rewardOn_append _ _ _ _ _ htl, if_pos rfl]
        have hvsum : v * ((s.chosen.count a : ℚ) + c0) =
            (rewardOn s.rewards s.chosen a : ℚ) := hveq v hv
        have key : (v + ((r : ℚ) - v) / (c + 1)) * (c + 1) = v * c + r := by
          field_simp
          ring
        simp only [MeanState.chosen, MeanState.rewards, hcount, hrOn]
        subst hw
        push_cast
        calc (v + ((r : ℚ) - v) / (c + 1)) * ((s.chosen.count a : ℚ) + 1 + c0)
            = (v + ((r : ℚ) - v) / (c + 1)) * (c + 1) := by rw [hcc]; ring
          _ = v * c + r := key
          _ = (rewardOn s.rewards s.chosen a : ℚ) + r := by
              rw [hcc, hvsum]
    · have hne : arm ≠ a := fun hh => haa hh.symm
      constructor
      · simp only [MeanState.counts, List.get?_eq_getElem?,
          List.getElem?_set_ne hne, count_append_singleton, if_neg hne]
        rw [← List.get?_eq_getElem?]
        simpa using (harm a ha).1
      · intro w hw
        simp only [MeanState.values, List.get?_eq_getElem?,
          List.getElem?_set_ne hne] at hw
        rw [← List.get?_eq_getElem?] at hw
        rw [rewardOn_append _ _ _ _ _ htl, if_neg hne,
          count_append_singleton, if_neg hne]
        simpa using (harm a ha).2 w hw

/-- Array lengths are unchanged by a successful `meanUpdate`. -/
theorem meanUpdate_lengths {env : AdBandit} {u : ℚ} {arm : ℕ}
    {s s' : MeanState} (h : meanUpdate env u arm s = some s') :
    s'.counts.length = s.counts.length ∧
      s'.values.length = s.values.length := by
  obtain ⟨r, c, v, _, _, _, rfl⟩ := meanUpdate_eq_some_iff.mp h
  simp

/-- The `epsilon_greedy` loop preserves the invariant and appends one
trace entry per remaining step. -/
theorem egLoop_preserves (K : ℕ) (c0 : ℚ) (hc0 : 0 ≤ c0) (env : AdBandit)
    (eps : ℚ) (e : ℕ → ℚ) (n : ℕ → ℕ) (u : ℕ → ℚ) :
    ∀ (fuel t : ℕ) (s s' : MeanState),
      egLoop env eps e n u t fuel s = some s' → MeanStateInv K c0 s →
      MeanStateInv K c0 s' ∧
        s'.rewards.length = s.rewards.length + fuel ∧
        s'.chosen.length = s.chosen.length + fuel := by
  intro fuel
  induction fuel with
  | zero =>
      intro t s s' hloop hs
      obtain rfl : s = s' := by simpa [egLoop] using hloop
      exact ⟨hs, rfl, rfl⟩
  | succ f ih =>
      intro t s s' hloop hs
      simp only [egLoop, Option.bind_eq_some] at hloop
      obtain ⟨s1, hstep, hrest⟩ := hloop
      simp only [egStep, Option.bind_eq_some] at hstep
      obtain ⟨arm, _, hupd⟩ := hstep
      obtain ⟨hs1, r, hrw1, hch1⟩ := meanUpdate_preserves hc0 hupd hs
      obtain ⟨hs', h1, h2⟩ := ih (t + 1) s1 s' hrest hs1
      refine ⟨hs', ?_, ?_⟩
      · rw [h1, hrw1]; simp; omega
      · rw [h2, hch1]; simp; omega

/-- The `ucb1` loop preserves the invariant and appends one trace entry
per remaining step. -/
theorem ucbLoop_preserves (K : ℕ) (c0 : ℚ) (hc0 : 0 ≤ c0) (env : AdBandit)
    (bonus : ℕ → ℚ → ℚ) (u : ℕ → ℚ) :
    ∀ (fuel t : ℕ) (s s' : MeanState),
      ucbLoop env bonus u t fuel s = some s' → MeanStateInv K c0 s →
      MeanStateInv K c0 s' ∧
        s'.rewards.length = s.rewards.length + fuel ∧
        s'.chosen.length = s.chosen.length + fuel := by
  intro fuel
  induction fuel with
  | zero =>
      intro t s s' hloop hs
      obtain rfl : s = s' := by simpa [ucbLoop] using hloop
      exact ⟨hs, rfl, rfl⟩
  | succ f ih =>
      intro t s s' hloop hs
      simp only [ucbLoop, Option.bind_eq_some] at hloop
      obtain ⟨s1, hstep, hrest⟩ := hloop
      simp only [ucbStep, Option.bind_eq_some] at hstep
      obtain ⟨arm, _, hupd⟩ := hstep
      obtain ⟨hs1, r, hrw1, hch1⟩ := meanUpdate_preserves hc0 hupd hs
      obtain ⟨hs', h1, h2⟩ := ih (t + 1) s1 s' hrest hs1
      refine ⟨hs', ?_, ?_⟩
      · rw [h1, hrw1]; simp; omega
      · rw [h2, hch1]; simp; omega

/-- Totality: `meanUpdate` succeeds whenever the arm is in range of the CTR vector
and of both state arrays. -/
theorem meanUpdate_total (env : AdBandit) (u : ℚ) (arm : ℕ) (s : MeanState)
    (hctr : arm < env.ctrs.length) (hcl : arm < s.counts.length)
    (hvl : arm < s.values.length) :
    ∃ s', meanUpdate env u arm s = some s' := by
  have hp : env.ctrs.get? arm = some (env.ctrs.get ⟨arm, hctr⟩) :=
    List.get?_eq_some.mpr ⟨hctr, rfl⟩
  have hc : s.counts.get? arm = some (s.counts.get ⟨arm, hcl⟩) :=
    List.get?_eq_some.mpr ⟨hcl, rfl⟩
  have hv : s.values.get? arm = some (s.values.get ⟨arm, hvl⟩) :=
    List.get?_eq_some.mpr ⟨hvl, rfl⟩
  have hr : env.pull (arm : ℤ) u =
      some (if u < env.ctrs.get ⟨arm, hctr⟩ then 1 else 0) :=
    (pull_nat_eq_some_iff env arm u _).mpr ⟨_, hp, rfl⟩
  exact ⟨_, meanUpdate_eq_some_iff.mpr ⟨_, _, _, hr, hc, hv, rfl⟩⟩

/-- The `epsilon_greedy` loop runs to completion on a well-formed
environment (`len(ctrs) = K ≥ 1`). -/
theorem egLoop_total (env : AdBandit) (eps : ℚ) (e : ℕ → ℚ) (n : ℕ → ℕ)
    (u : ℕ → ℚ) (hE : env.ctrs.length = env.K) (hK : 1 ≤ env.K) :
    ∀ (fuel t : ℕ) (s : MeanState), s.counts.length = env.K →
      s.values.length = env.K →
      ∃ s', egLoop env eps e n u t fuel s = some s' := by
  intro fuel
  induction fuel with
  | zero => intro t s _ _; exact ⟨s, rfl⟩
  | succ f ih =>
      intro t s hcl hvl
      have hsel : ∃ arm,
          (if e t < eps then npRandint env.K (n t) else npArgmax s.values) =
            some arm ∧ arm < env.K := by
        by_cases he : e t < eps
        · refine ⟨n t % env.K, ?_, Nat.mod_lt _ hK⟩
          have h0 : env.K ≠ 0 := by omega
          simp [he, npRandint, h0]
        · have hne : s.values ≠ [] := by
            intro hnil; rw [hnil] at hvl; simp at hvl; omega
          obtain ⟨arm, harm, hlt⟩ := npArgmax_isSome hne
          exact ⟨arm, by simp [he, harm], hvl ▸ hlt⟩
      obtain ⟨arm, harm, hlt⟩ := hsel
      obtain ⟨s1, hupd⟩ := meanUpdate_total env (u t) arm s
        (by omega) (by omega) (by omega)
      obtain ⟨hl1, hl2⟩ := meanUpdate_lengths hupd
      obtain ⟨s', hrest⟩ := ih (t + 1) s1 (by omega) (by omega)
      refine ⟨s', ?_⟩
      simp only [egLoop, Option.bind_eq_some]
      refine ⟨s1, ?_, hrest⟩
      simp only [egStep, Option.bind_eq_some]
      exact ⟨arm, harm, hupd⟩

/-- The `ucb1` loop runs to completion on a well-formed environment. -/
theorem ucbLoop_total (env : AdBandit) (bonus : ℕ → ℚ → ℚ) (u : ℕ → ℚ)
    (hE : env.ctrs.length = env.K) (hK : 1 ≤ env.K) :
    ∀ (fuel t : ℕ) (s : MeanState), s.counts.length = env.K →
      s.values.length = env.K →
      ∃ s', ucbLoop env bonus u t fuel s = some s' := by
  intro fuel
  induction fuel with
  | zero => intro t s _ _; exact ⟨s, rfl⟩
  | succ f ih =>
      intro t s hcl hvl
      have hzl : (List.zipWith (fun v c => v + bonus t c) s.values
          s.counts).length = env.K := by
        simp [List.length_zipWith, hcl, hvl]
      have hne : List.zipWith (fun v c => v + bonus t c) s.values
          s.counts ≠ [] := by
        intro hnil; rw [hnil] at hzl; simp at hzl; omega
      obtain ⟨arm, harm, hlt⟩ := npArgmax_isSome hne
      rw [hzl] at hlt
      obtain ⟨s1, hupd⟩ := meanUpdate_total env (u t) arm s
        (by omega) (by omega) (by omega)
      obtain ⟨hl1, hl2⟩ := meanUpdate_lengths hupd
      obtain ⟨s', hrest⟩ := ih (t + 1) s1 (by omega) (by omega)
      refine ⟨s', ?_⟩
      simp only [ucbLoop, Option.bind_eq_some]
      refine ⟨s1, ?_, hrest⟩
      simp only [ucbStep, Option.bind_eq_some]
      exact ⟨arm, harm, hupd⟩

/-- Loop invariant of `thompson_sampling`: the pseudo-count arrays have
length `K`, the trace arrays run in lock step with Bernoulli rewards and
in-range arms, and for every arm `alpha[a]` is one plus the total reward
collected on `a` while `beta[a]` is one plus the number of failures
(pulls of `a` minus reward on `a`). -/
def TSStateInv (K : ℕ) (s : TSState) : Prop :=
  s.alpha.length = K ∧
  s.beta.length = K ∧
  s.rewards.length = s.chosen.length ∧
  (∀ r ∈ s.rewards, r = 0 ∨ r = 1) ∧
  (∀ a ∈ s.chosen, a < K) ∧
  (∀ a, a < K →
    rewardOn s.rewards s.chosen a ≤ s.chosen.count a ∧
    s.alpha.get? a = some ((rewardOn s.rewards s.chosen a : ℚ) + 1) ∧
    s.beta.get? a = some (((s.chosen.count a : ℚ) -
      (rewardOn s.rewards s.chosen a : ℚ)) + 1))

theorem tsStateInv_init (K : ℕ) : TSStateInv K (tsInit K) := by
  refine ⟨by simp [tsInit], by simp [tsInit], rfl, by simp [tsInit],
    by simp [tsInit], ?_⟩
  intro a ha
  simp [tsInit, List.getElem?_replicate, ha, rewardOn]

/-- Unfolding of a successful `tsStep`. -/
theorem tsStep_eq_some_iff {env : AdBandit} {theta : ℕ → ℕ → ℚ} {t : ℕ}
    {u : ℚ} {s s' : TSState} :
    tsStep env theta t u s = some s' ↔
      ∃ arm r a0 b0,
        npArgmax ((List.range s.alpha.length).map (theta t)) = some arm ∧
        env.pull (arm : ℤ) u = some r ∧
        s.alpha.get? arm = some a0 ∧ s.beta.get? arm = some b0 ∧
        s' = { alpha := s.alpha.set arm (a0 + (r : ℚ)),
               beta := s.beta.set arm (b0 + (1 - (r : ℚ))),
               rewards := s.rewards ++ [r],
               chosen := s.chosen ++ [arm] } := by
  simp only [tsStep, Option.bind_eq_some, Option.some.injEq]
  constructor
  · rintro ⟨arm, harm, r, hr, a0, ha0, b0, hb0, hs⟩
    exact ⟨arm, r, a0, b0, harm, hr, ha0, hb0, hs.symm⟩
  · rintro ⟨arm, r, a0, b0, harm, hr, ha0, hb0, hs⟩
    exact ⟨arm, harm, r, hr, a0, ha0, b0, hb0, hs.symm⟩

/-- A successful `tsStep` preserves the invariant and appends one trace
entry. -/
theorem tsStep_preserves {K : ℕ} {env : AdBandit} {theta : ℕ → ℕ → ℚ}
    {t : ℕ} {u : ℚ} {s s' : TSState}
    (h : tsStep env theta t u s = some s') (hs : TSStateInv K s) :
    TSStateInv K s' ∧
      ∃ r arm, s'.rewards = s.rewards ++ [r] ∧
        s'.chosen = s.chosen ++ [arm] := by
  obtain ⟨hal, hbl, htl, hrw, hch, harm⟩ := hs
  obtain ⟨arm, r, a0, b0, hsel, hpull, ha0, hb0, hs'⟩ := tsStep_eq_some_iff.mp h
  have harma : arm < s.alpha.length := (List.get?_eq_some.mp ha0).1
  have harmb : arm < s.beta.length := (List.get?_eq_some.mp hb0).1
  have harmK : arm < K := hal ▸ harma
  obtain ⟨hle, haeq, hbeq⟩ := harm arm harmK
  have ha0v : a0 = (rewardOn s.rewards s.chosen arm : ℚ) + 1 := by
    rw [ha0] at haeq; exact (Option.some.injEq _ _ ▸ haeq :)
  have hb0v : b0 = ((s.chosen.count arm : ℚ) -
      (rewardOn s.rewards s.chosen arm : ℚ)) + 1 := by
    rw [hb0] at hbeq; exact (Option.some.injEq _ _ ▸ hbeq :)
  have hr01 : r = 0 ∨ r = 1 := pull_mem hpull
  subst hs'
  refine ⟨⟨by simpa using hal, by simpa using hbl, by simp [htl], ?_, ?_, ?_⟩,
    r, arm, rfl, rfl⟩
  · intro x hx
    rcases List.mem_append.mp hx with hx | hx
    · exact hrw x hx
    · rcases List.mem_singleton.mp hx with rfl
      exact hr01
  · intro a ha
    rcases List.mem_append.mp ha with ha | ha
    · exact hch a ha
    · rcases List.mem_singleton.mp ha with rfl
      exact harmK
  · intro a ha
    by_cases haa : a = arm
    · subst haa
      have hcount : (s.chosen ++ [a]).count a = s.chosen.count a + 1 := by
        rw [count_append_singleton, if_pos rfl]
      have hrOn : rewardOn (s.rewards ++ [r]) (s.chosen ++ [a]) a =
          rewardOn s.rewards s.chosen a + r := by
        rw [rewardOn_append _ _ _ _ _ htl, if_pos rfl]
      refine ⟨?_, ?_, ?_⟩
      · rw [hcount, hrOn]; omega
      · simp only [TSState.alpha, TSState.chosen, TSState.rewards,
          List.get?_eq_getElem?, List.getElem?_set_self harma, hrOn,
          Option.some.injEq]
        rw [ha0v]; push_cast; ring
      · simp only [TSState.beta, TSState.chosen, TSState.rewards,
          List.get?_eq_getElem?, List.getElem?_set_self harmb, hrOn, hcount,
          Option.some.injEq]
        rw [hb0v]; push_cast; ring
    · have hne : arm ≠ a := fun hh => haa hh.symm
      have hcount : (s.chosen ++ [arm]).count a = s.chosen.count a := by
        rw [count_append_singleton, if_neg hne]; omega
      have hrOn : rewardOn (s.rewards ++ [r]) (s.chosen ++ [arm]) a =
          rewardOn s.rewards s.chosen a := by
        rw [rewardOn_append _ _ _ _ _ htl, if_neg hne]; omega
      obtain ⟨hle2, haeq2, hbeq2⟩ := harm a ha
      refine ⟨?_, ?_, ?_⟩
      · rw [hcount, hrOn]; exact hle2
      · simp only [TSState.alpha, TSState.chosen, TSState.rewards,
          List.get?_eq_getElem?, List.getElem?_set_ne hne, hrOn]
        rw [← List.get?_eq_getElem?]
        exact haeq2
      · simp only [TSState.beta, TSState.chosen, TSState.rewards,
          List.get?_eq_getElem?, List.getElem?_set_ne hne, hrOn, hcount]
        rw [← List.get?_eq_getElem?]
        exact hbeq2

/-- The `thompson_sampling` loop preserves the invariant and appends one
trace entry per remaining step. -/
theorem tsLoop_preserves (K : ℕ) (env : AdBandit) (theta : ℕ → ℕ → ℚ)
    (u : ℕ → ℚ) :
    ∀ (fuel t : ℕ) (s s' : TSState),
      tsLoop env theta u t fuel s = some s' → TSStateInv K s →
      TSStateInv K s' ∧
        s'.rewards.length = s.rewards.length + fuel ∧
        s'.chosen.length = s.chosen.length + fuel := by
  intro fuel
  induction fuel with
  | zero =>
      intro t s s' hloop hs
      obtain rfl : s = s' := by simpa [tsLoop] using hloop
      exact ⟨hs, rfl, rfl⟩
  | succ f ih =>
      intro t s s' hloop hs
      simp only [tsLoop, Option.bind_eq_some] at hloop
      obtain ⟨s1, hstep, hrest⟩ := hloop
      obtain ⟨hs1, r, arm, hrw1, hch1⟩ := tsStep_preserves hstep hs
      obtain ⟨hs', h1, h2⟩ := ih (t + 1) s1 s' hrest hs1
      refine ⟨hs', ?_, ?_⟩
      · rw [h1, hrw1]; simp; omega
      · rw [h2, hch1]; simp; omega

/-- The `thompson_sampling` loop runs to completion on a well-formed
environment. -/
theorem tsLoop_total (env : AdBandit) (theta : ℕ → ℕ → ℚ) (u : ℕ → ℚ)
    (hE : env.ctrs.length = env.K) (hK : 1 ≤ env.K) :
    ∀ (fuel t : ℕ) (s : TSState), s.alpha.length = env.K →
      s.beta.length = env.K →
      ∃ s', tsLoop env theta u t fuel s = some s' := by
  intro fuel
  induction fuel with
  | zero => intro t s _ _; exact ⟨s, rfl⟩
  | succ f ih =>
      intro t s hal hbl
      have hne : (List.range s.alpha.length).map (theta t) ≠ [] := by
        simp only [ne_eq, List.map_eq_nil_iff, List.range_eq_nil]
        omega
      obtain ⟨arm, harm, hlt⟩ := npArgmax_isSome hne
      rw [List.length_map, List.length_range] at hlt
      have hpl : env.ctrs.get? arm = some (env.ctrs.get ⟨arm, by omega⟩) :=
        List.get?_eq_some.mpr ⟨by omega, rfl⟩
      have hpull : env.pull (arm : ℤ) (u t) =
          some (if u t < env.ctrs.get ⟨arm, by omega⟩ then 1 else 0) :=
        (pull_nat_eq_some_iff env arm (u t) _).mpr ⟨_, hpl, rfl⟩
      have ha0 : s.alpha.get? arm = some (s.alpha.get ⟨arm, by omega⟩) :=
        List.get?_eq_some.mpr ⟨by omega, rfl⟩
      have hb0 : s.beta.get? arm = some (s.beta.get ⟨arm, by omega⟩) :=
        List.get?_eq_some.mpr ⟨by omega, rfl⟩
      have hstep : ∃ s1, tsStep env theta t (u t) s = some s1 :=
        ⟨_, tsStep_eq_some_iff.mpr ⟨arm, _, _, _, harm, hpull, ha0, hb0, rfl⟩⟩
      obtain ⟨s1, hstep⟩ := hstep
      obtain ⟨arm', r', a0', b0', _, _, _, _, hs1⟩ := tsStep_eq_some_iff.mp hstep
      have hal1 : s1.alpha.length = env.K := by rw [hs1]; simpa using hal
      have hbl1 : s1.beta.length = env.K := by rw [hs1]; simpa using hbl
      obtain ⟨s', hrest⟩ := ih (t + 1) s1 hal1 hbl1
      refine ⟨s', ?_⟩
      simp only [tsLoop, Option.bind_eq_some]
      exact ⟨s1, hstep, hrest⟩

/-- Specification predicate for a returned trace: the run succeeds, both
trace arrays have exactly `T` entries, every reward is `0` or `1`, and
every chosen arm index lies in `[0, K)`. -/
def TraceOK (K T : ℕ) (out : Option (List ℕ × List ℕ)) : Prop :=
  ∃ rw ch, out = some (rw, ch) ∧ rw.length = T ∧ ch.length = T ∧
    (∀ r ∈ rw, r = 0 ∨ r = 1) ∧ (∀ a ∈ ch, a < K)

/-- C1: for every well-formed environment with `K ≥ 1` arms and every
horizon `T ≥ 1`, each of the three algorithm runs returns a trace of
exactly `T` entries, in which every reward is `0` or `1` and every chosen
arm index lies in `[0, K)`. -/
theorem claim_C1_trace_shape (env : AdBandit) (T : ℕ) (eps : ℚ)
    (e : ℕ → ℚ) (n : ℕ → ℕ) (u : ℕ → ℚ) (bonus : ℕ → ℚ → ℚ)
    (theta : ℕ → ℕ → ℚ)
    (hE : env.ctrs.length = env.K) (hK : 1 ≤ env.K) (hT : 1 ≤ T) :
    TraceOK env.K T (epsilon_greedy env T eps e n u) ∧
    TraceOK env.K T (ucb1 env T bonus u) ∧
    TraceOK env.K T (thompson_sampling env T theta u) := by
  refine ⟨?_, ?_, ?_⟩
  · obtain ⟨s', hloop⟩ := egLoop_total env eps e n u hE hK T 0 (egInit env.K)
      (by simp [egInit]) (by simp [egInit])
    obtain ⟨⟨_, _, _, hrw, hch, _⟩, h1, h2⟩ :=
      egLoop_preserves env.K 0 le_rfl env eps e n u T 0
        (egInit env.K) s' hloop (meanStateInv_init_eg env.K)
    exact ⟨s'.rewards, s'.chosen, by simp [epsilon_greedy, hloop],
      by simpa [egInit] using h1, by simpa [egInit] using h2, hrw, hch⟩
  · obtain ⟨s', hloop⟩ := ucbLoop_total env bonus u hE hK T 0 (ucbInit env.K)
      (by simp [ucbInit]) (by simp [ucbInit])
    obtain ⟨⟨_, _, _, hrw, hch, _⟩, h1, h2⟩ :=
      ucbLoop_preserves env.K 1 zero_le_one env bonus u T 0
        (ucbInit env.K) s' hloop (meanStateInv_init_ucb env.K)
    exact ⟨s'.rewards, s'.chosen, by simp [ucb1, hloop],
      by simpa [ucbInit] using h1, by simpa [ucbInit] using h2, hrw, hch⟩
  · obtain ⟨s', hloop⟩ := tsLoop_total env theta u hE hK T 0 (tsInit env.K)
      (by simp [tsInit]) (by simp [tsInit])
    obtain ⟨⟨_, _, _, hrw, hch, _⟩, h1, h2⟩ :=
      tsLoop_preserves env.K env theta u T 0
        (tsInit env.K) s' hloop (tsStateInv_init env.K)
    exact ⟨s'.rewards, s'.chosen, by simp [thompson_sampling, hloop],
      by simpa [tsInit] using h1, by simpa [tsInit] using h2, hrw, hch⟩

/-- Witness for C1 at the concrete environment `(["a"], [1/2])`, horizon
`T = 1`, all random draws zero. -/
theorem claim_C1_trace_shape_witness :
    TraceOK (AdBandit.K ⟨["a"], [1/2]⟩) 1
      (epsilon_greedy ⟨["a"], [1/2]⟩ 1 (1/10) (fun _ => 0) (fun _ => 0)
        (fun _ => 0)) ∧
    TraceOK (AdBandit.K ⟨["a"], [1/2]⟩) 1
      (ucb1 ⟨["a"], [1/2]⟩ 1 (fun _ _ => 0) (fun _ => 0)) ∧
    TraceOK (AdBandit.K ⟨["a"], [1/2]⟩) 1
      (thompson_sampling ⟨["a"], [1/2]⟩ 1 (fun _ _ => 0) (fun _ => 0)) :=
  claim_C1_trace_shape ⟨["a"], [1/2]⟩ 1 (1/10) (fun _ => 0) (fun _ => 0)
    (fun _ => 0) (fun _ _ => 0) (fun _ _ => 0) rfl (by decide) (by decide)

/-- C2: in every run of `epsilon_greedy` (any number `T` of completed
steps), for every arm `a`, the state's `count[a]` equals the number of
times arm `a` has been pulled, and whenever that count is positive the
incremental update has made `value[a]` equal, in exact arithmetic, to the
arithmetic mean of the rewards observed on arm `a`. -/
theorem claim_C2_incremental_mean (env : AdBandit) (eps : ℚ) (e : ℕ → ℚ)
    (n : ℕ → ℕ) (u : ℕ → ℚ) (T : ℕ) (s' : MeanState)
    (hrun : egLoop env eps e n u 0 T (egInit env.K) = some s') :
    ∀ a, a < env.K →
      s'.counts.get? a = some ((s'.chosen.count a : ℚ)) ∧
      (0 < s'.chosen.count a →
        s'.values.get? a = some ((rewardOn s'.rewards s'.chosen a : ℚ) /
          (s'.chosen.count a : ℚ))) := by
  obtain ⟨⟨hcl, hvl, htl, hrw, hch, harm⟩, -, -⟩ :=
    egLoop_preserves env.K 0 le_rfl env eps e n u T 0
      (egInit env.K) s' hrun (meanStateInv_init_eg env.K)
  intro a ha
  obtain ⟨hceq, hveq⟩ := harm a ha
  refine ⟨by simpa using hceq, ?_⟩
  intro hpos
  have hvlt : a < s'.values.length := by omega
  obtain ⟨v, hv⟩ : ∃ v, s'.values.get? a = some v :=
    ⟨_, List.get?_eq_some.mpr ⟨hvlt, rfl⟩⟩
  have hmul : v * ((s'.chosen.count a : ℚ)) =
      (rewardOn s'.rewards s'.chosen a : ℚ) := by
    simpa using hveq v hv
  have hc0 : ((s'.chosen.count a : ℚ)) ≠ 0 := by
    exact_mod_cast Nat.pos_iff_ne_zero.mp hpos
  rw [hv]
  refine congrArg some ?_
  rw [eq_div_iff hc0]
  exact hmul

/-- Witness for C2: `epsilon_greedy` with one arm of CTR `1/2`, `ε = 0`,
one step, all draws `0`; the run pulls arm 0, observes reward 1, and ends
with `count[0] = 1` and `value[0] = 1/1`. -/
theorem claim_C2_incremental_mean_witness :
    ([(1 : ℚ)].get? 0 = some ((List.count 0 [0] : ℚ))) ∧
    (0 < List.count 0 [0] →
      [(1 : ℚ)].get? 0 =
        some ((rewardOn [1] [0] 0 : ℚ) / (List.count 0 [0] : ℚ))) :=
  claim_C2_incremental_mean ⟨["a"], [1/2]⟩ 0 (fun _ => 0) (fun _ => 0)
    (fun _ => 0) 1 ⟨[1], [1], [1], [0]⟩
    (by norm_num [egLoop, egStep, meanUpdate, AdBandit.pull, npGet, npArgmax,
      argmaxAux, npRandint, egInit, AdBandit.K]) 0 (by decide)

/-- C8: in every run of `ucb1` (any number `T` of completed steps), for
every arm `a`, `count[a]` equals the number of pulls of `a` plus one, and
`value[a]` equals (total reward on `a`) / (pulls of `a` + 1) — the mean
as if one extra phantom observation of `0` had been seen, not the sample
mean.  This holds for every exploration-bonus function. -/
theorem claim_C8_ucb_phantom_mean (env : AdBandit) (bonus : ℕ → ℚ → ℚ)
    (u : ℕ → ℚ) (T : ℕ) (s' : MeanState)
    (hrun : ucbLoop env bonus u 0 T (ucbInit env.K) = some s') :
    ∀ a, a < env.K →
      s'.counts.get? a = some ((s'.chosen.count a : ℚ) + 1) ∧
      s'.values.get? a = some ((rewardOn s'.rewards s'.chosen a : ℚ) /
        ((s'.chosen.count a : ℚ) + 1)) := by
  obtain ⟨⟨hcl, hvl, htl, hrw, hch, harm⟩, -, -⟩ :=
    ucbLoop_preserves env.K 1 zero_le_one env bonus u T 0
      (ucbInit env.K) s' hrun (meanStateInv_init_ucb env.K)
  intro a ha
  obtain ⟨hceq, hveq⟩ := harm a ha
  refine ⟨hceq, ?_⟩
  have hvlt : a < s'.values.length := by omega
  obtain ⟨v, hv⟩ : ∃ v, s'.values.get? a = some v :=
    ⟨_, List.get?_eq_some.mpr ⟨hvlt, rfl⟩⟩
  have hmul : v * ((s'.chosen.count a : ℚ) + 1) =
      (rewardOn s'.rewards s'.chosen a : ℚ) := hveq v hv
  have hc0 : ((s'.chosen.count a : ℚ) + 1) ≠ 0 := by positivity
  rw [hv]
  refine congrArg some ?_
  rw [eq_div_iff hc0]
  exact hmul

/-- Witness for C8: `ucb1` with one arm of CTR `1/2`, one step, all draws
zero; the run pulls arm 0, observes reward 1, and ends with
`count[0] = 2` and `value[0] = 1/2` — not the sample mean `1`. -/
theorem claim_C8_ucb_phantom_mean_witness :
    ([(2 : ℚ)].get? 0 = some ((List.count 0 [0] : ℚ) + 1)) ∧
    ([(1/2 : ℚ)].get? 0 =
      some ((rewardOn [1] [0] 0 : ℚ) / ((List.count 0 [0] : ℚ) + 1))) :=
  claim_C8_ucb_phantom_mean ⟨["a"], [1/2]⟩ (fun _ _ => 0) (fun _ => 0) 1
    ⟨[2], [1/2], [1], [0]⟩
    (by norm_num [ucbLoop, ucbStep, meanUpdate, AdBandit.pull, npGet,
      npArgmax, argmaxAux, ucbInit, AdBandit.K]) 0 (by decide)

/-- C9: in every run of `thompson_sampling` (any number `T` of completed
steps) and for every arm `a`: `alpha[a] ≥ 1`, `beta[a] ≥ 1`,
`alpha[a] − 1` equals the total reward collected on arm `a`, and
`alpha[a] + beta[a] − 2` equals the number of times arm `a` was chosen. -/
theorem claim_C9_ts_posterior (env : AdBandit) (theta : ℕ → ℕ → ℚ)
    (u : ℕ → ℚ) (T : ℕ) (s' : TSState)
    (hrun : tsLoop env theta u 0 T (tsInit env.K) = some s') :
    ∀ a, a < env.K → ∃ al be,
      s'.alpha.get? a = some al ∧ s'.beta.get? a = some be ∧
      1 ≤ al ∧ 1 ≤ be ∧
      al - 1 = (rewardOn s'.rewards s'.chosen a : ℚ) ∧
      al + be - 2 = (s'.chosen.count a : ℚ) := by
  obtain ⟨⟨hal, hbl, htl, hrw, hch, harm⟩, -, -⟩ :=
    tsLoop_preserves env.K env theta u T 0
      (tsInit env.K) s' hrun (tsStateInv_init env.K)
  intro a ha
  obtain ⟨hle, haeq, hbeq⟩ := harm a ha
  refine ⟨_, _, haeq, hbeq, ?_, ?_, by ring, by ring⟩
  · have : (0 : ℚ) ≤ (rewardOn s'.rewards s'.chosen a : ℚ) :=
      Nat.cast_nonneg _
    linarith
  · have : (rewardOn s'.rewards s'.chosen a : ℚ) ≤
        ((s'.chosen.count a : ℚ)) := by exact_mod_cast hle
    linarith

/-- Witness for C9: `thompson_sampling` with one arm of CTR `1/2`, one
step, all draws zero; the run pulls arm 0, observes reward 1, ending with
`alpha = [2]`, `beta = [1]`. -/
theorem claim_C9_ts_posterior_witness :
    ∃ al be, [(2 : ℚ)].get? 0 = some al ∧ [(1 : ℚ)].get? 0 = some be ∧
      1 ≤ al ∧ 1 ≤ be ∧
      al - 1 = (rewardOn [1] [0] 0 : ℚ) ∧
      al + be - 2 = (List.count 0 [0] : ℚ) :=
  claim_C9_ts_posterior ⟨["a"], [1/2]⟩ (fun _ _ => 0) (fun _ => 0) 1
    ⟨[2], [1], [1], [0]⟩
    (by norm_num [tsLoop, tsStep, AdBandit.pull, npGet, npArgmax,
      argmaxAux, tsInit, AdBandit.K]) 0 (by decide)

/-- C7: for every horizon `T ≥ 1` and every exploration-bonus function,
`ucb1` against a single-arm environment (`K = 1`) selects arm 0 at every
step, and `count[0]` after the run equals `T + 1` (initial value 1 plus
`T` increments). -/
theorem claim_C7_ucb_single_arm (env : AdBandit) (bonus : ℕ → ℚ → ℚ)
    (u : ℕ → ℚ) (T : ℕ) (hads : env.ads.length = 1)
    (hctrs : env.ctrs.length = 1) (hT : 1 ≤ T) :
    ∃ s', ucbLoop env bonus u 0 T (ucbInit env.K) = some s' ∧
      s'.chosen = List.replicate T 0 ∧
      s'.counts.get? 0 = some ((T : ℚ) + 1) := by
  have hK : env.K = 1 := hads
  obtain ⟨s', hloop⟩ := ucbLoop_total env bonus u (by rw [hctrs, hK])
    (by omega) T 0 (ucbInit env.K) (by simp [ucbInit]) (by simp [ucbInit])
  obtain ⟨⟨hcl, hvl, htl, hrw, hch, harm⟩, h1, h2⟩ :=
    ucbLoop_preserves env.K 1 zero_le_one env bonus u T 0
      (ucbInit env.K) s' hloop (meanStateInv_init_ucb env.K)
  have hchosen : s'.chosen = List.replicate T 0 := by
    rw [List.eq_replicate_iff]
    refine ⟨by rw [h2]; simp [ucbInit], ?_⟩
    intro b hb
    have := hch b hb
    omega
  obtain ⟨hceq, -⟩ := harm 0 (by omega)
  rw [hchosen] at hceq
  refine ⟨s', hloop, hchosen, ?_⟩
  simpa using hceq

/-- Witness for C7: one arm of CTR `1/2`, horizon `T = 1`, all draws and
bonuses zero; the run selects arm 0 and ends with `count[0] = 2`. -/
theorem claim_C7_ucb_single_arm_witness :
    ∃ s', ucbLoop ⟨["a"], [1/2]⟩ (fun _ _ => 0) (fun _ => 0) 0 1
        (ucbInit (AdBandit.K ⟨["a"], [1/2]⟩)) = some s' ∧
      s'.chosen = List.replicate 1 0 ∧
      s'.counts.get? 0 = some ((1 : ℕ) + 1 : ℚ) :=
  claim_C7_ucb_single_arm ⟨["a"], [1/2]⟩ (fun _ _ => 0) (fun _ => 0) 1
    rfl rfl (by decide)

/-- Entry `t` of `np.cumsum` is the sum of the first `t + 1` entries. -/
theorem cumsum_get? (l : List ℚ) (t : ℕ) (ht : t < l.length) :
    (cumsum l).get? t = some ((l.take (t + 1)).sum) := by
  simp [cumsum, List.get?_eq_getElem?, List.getElem?_range ht]

theorem sum_map_const_sub (c : ℚ) (l : List ℚ) :
    (l.map (fun r => c - r)).sum = l.length * c - l.sum := by
  induction l with
  | nil => simp
  | cons x xs ih => simp [ih]; ring

/-- C3: for every reward trace (hence for every single algorithm run) and
every step index `t`, the cumulative regret entry
`np.cumsum(optimal - rewards)[t]` equals `(t+1) × optimal` minus the
cumulative reward `np.cumsum(rewards)[t]`, exactly.  With `t = T - 1`
this is: regret at step `T` equals `T × optimal − cumulative reward at
step `T`. -/
theorem claim_C3_regret_identity (optimal : ℚ) (rewards : List ℚ) (t : ℕ)
    (ht : t < rewards.length) (x : ℚ)
    (hx : (cumsum rewards).get? t = some x) :
    (regretSeries optimal rewards).get? t =
      some (((t : ℚ) + 1) * optimal - x) := by
  have hxval : x = (rewards.take (t + 1)).sum := by
    rw [cumsum_get? rewards t ht] at hx
    exact (Option.some.injEq _ _ ▸ hx.symm :)
  have hml : (rewards.map fun r => optimal - r).length = rewards.length := by
    simp
  rw [regretSeries, cumsum_get? _ t (by omega)]
  refine congrArg some ?_
  rw [← List.map_take, sum_map_const_sub, List.length_take,
    Nat.min_eq_left (by omega), hxval]
  push_cast
  ring

/-- Witness for C3 at `rewards = [1, 0]`, `optimal = 1/2`, `t = 1`:
cumulative reward is `1` and cumulative regret is `2 × 1/2 − 1 = 0`. -/
theorem claim_C3_regret_identity_witness :
    (regretSeries (1/2) [1, 0]).get? 1 =
      some ((((1 : ℕ) : ℚ) + 1) * (1/2) - 1) :=
  claim_C3_regret_identity (1/2) [1, 0] 1 (by decide) 1
    (by norm_num [cumsum])

/-- C5 counterexample: a concrete `epsilon_greedy` run (one arm of CTR
`1/2`, `ε = 0`, two steps, both pulls rewarded) whose cumulative-regret
series `np.cumsum(1/2 - [1, 1]) = [-1/2, -1]` strictly DECREASES from
step 0 to step 1: realized rewards can exceed the optimal probability,
so the series is not non-decreasing. -/
theorem claim_C5_counterexample :
    epsilon_greedy ⟨["a"], [1/2]⟩ 2 0 (fun _ => 0) (fun _ => 0)
        (fun _ => 0) = some ([1, 1], [0, 0]) ∧
    npMax (AdBandit.expected_rewards ⟨["a"], [1/2]⟩) = some (1/2) ∧
    (regretSeries (1/2) [1, 1]).get? 0 = some (-(1/2)) ∧
    (regretSeries (1/2) [1, 1]).get? 1 = some (-1) ∧
    ¬ ((-(1/2) : ℚ) ≤ -1) := by
  refine ⟨?_, ?_, ?_, ?_, by norm_num⟩
  · norm_num [epsilon_greedy, egLoop, egStep, meanUpdate, AdBandit.pull,
      npGet, npArgmax, argmaxAux, npRandint, egInit, AdBandit.K]
  · norm_num [npMax, AdBandit.expected_rewards]
  · norm_num [regretSeries, cumsum]
  · norm_num [regretSeries, cumsum]

/-- C5 amended: the cumulative-regret series is non-decreasing provided
every realized reward is at most the optimal probability (e.g. when the
optimal probability is 1); a step whose reward exceeds the optimal
probability strictly decreases it. -/
theorem claim_C5_amended_regret_monotone (optimal : ℚ) (rewards : List ℚ)
    (hle : ∀ r ∈ rewards, r ≤ optimal) (t : ℕ)
    (ht : t + 1 < rewards.length) (x y : ℚ)
    (hx : (regretSeries optimal rewards).get? t = some x)
    (hy : (regretSeries optimal rewards).get? (t + 1) = some y) :
    x ≤ y := by
  have hm : (rewards.map fun r => optimal - r).length = rewards.length := by
    simp
  rw [regretSeries, cumsum_get? _ t (by omega)] at hx
  rw [regretSeries, cumsum_get? _ (t + 1) (by omega)] at hy
  have hx' : x = ((rewards.map fun r => optimal - r).take (t + 1)).sum :=
    (Option.some.injEq _ _ ▸ hx.symm :)
  have hy' : y = ((rewards.map fun r => optimal - r).take (t + 2)).sum :=
    (Option.some.injEq _ _ ▸ hy.symm :)
  have hrt : t + 1 < rewards.length := ht
  have hget : (rewards.map fun r => optimal - r)[t + 1]? =
      some (optimal - rewards[t + 1]) := by
    rw [List.getElem?_map, List.getElem?_eq_getElem hrt]
    rfl
  have htake : (rewards.map fun r => optimal - r).take (t + 2) =
      (rewards.map fun r => optimal - r).take (t + 1) ++
        [optimal - rewards[t + 1]] := by
    rw [List.take_succ, hget]
    rfl
  have hmem : rewards[t + 1] ≤ optimal :=
    hle _ (List.getElem_mem hrt)
  rw [hy', htake, List.sum_append, List.sum_singleton, ← hx']
  linarith

/-- Witness for the amended C5 at `optimal = 1/2`, `rewards = [0, 0]`,
`t = 0`: regret goes from `1/2` up to `1`. -/
theorem claim_C5_amended_regret_monotone_witness : (1/2 : ℚ) ≤ 1 :=
  claim_C5_amended_regret_monotone (1/2) [0, 0]
    (by intro r hr; simp at hr; subst hr; norm_num) 0 (by decide)
    (1/2) 1 (by norm_num [regretSeries, cumsum])
    (by norm_num [regretSeries, cumsum])

/-- C4 counterexample: a malformed configuration with horizon `T = 0 < 1`
and `ε = 5 ∉ [0,1]` does NOT fail fast — all three algorithms complete
successfully, returning an empty trace. -/
theorem claim_C4_counterexample :
    epsilon_greedy ⟨["a"], [1/2]⟩ 0 5 (fun _ => 0) (fun _ => 0)
        (fun _ => 0) = some ([], []) ∧
    ucb1 ⟨["a"], [1/2]⟩ 0 (fun _ _ => 0) (fun _ => 0) = some ([], []) ∧
    thompson_sampling ⟨["a"], [1/2]⟩ 0 (fun _ _ => 0) (fun _ => 0) =
      some ([], []) :=
  ⟨rfl, rfl, rfl⟩

/-- C4 amended: the code performs no configuration validation at
construction or entry.  A malformed horizon `T < 1` does not fail: every
algorithm completes immediately with an empty trace, for any environment
and any `ε` (including `ε` outside `[0,1]`). -/
theorem claim_C4_no_validation (env : AdBandit) (T : ℕ) (eps : ℚ)
    (e : ℕ → ℚ) (n : ℕ → ℕ) (u : ℕ → ℚ) (bonus : ℕ → ℚ → ℚ)
    (theta : ℕ → ℕ → ℚ) (hT : T < 1) :
    epsilon_greedy env T eps e n u = some ([], []) ∧
    ucb1 env T bonus u = some ([], []) ∧
    thompson_sampling env T theta u = some ([], []) := by
  obtain rfl : T = 0 := by omega
  exact ⟨rfl, rfl, rfl⟩

/-- Witness for the amended C4 at a concrete environment with `T = 0`. -/
theorem claim_C4_no_validation_witness :
    epsilon_greedy ⟨["a"], [1/2]⟩ 0 5 (fun _ => 0) (fun _ => 0)
        (fun _ => 0) = some ([], []) ∧
    ucb1 ⟨["a"], [1/2]⟩ 0 (fun _ _ => 0) (fun _ => 0) = some ([], []) ∧
    thompson_sampling ⟨["a"], [1/2]⟩ 0 (fun _ _ => 0) (fun _ => 0) =
      some ([], []) :=
  claim_C4_no_validation ⟨["a"], [1/2]⟩ 0 5 (fun _ => 0) (fun _ => 0)
    (fun _ => 0) (fun _ _ => 0) (fun _ _ => 0) (by decide)

/-- C6 counterexample: on a one-arm environment, the arm index `-1` lies
outside `[0, K)`, yet `pull(-1)` does not fail — NumPy negative indexing
wraps around and the call returns the reward `1`. -/
theorem claim_C6_counterexample :
    ¬ (0 ≤ (-1 : ℤ) ∧ (-1 : ℤ) < (AdBandit.K ⟨["a"], [1]⟩ : ℤ)) ∧
    AdBandit.pull ⟨["a"], [1]⟩ (-1) 0 = some 1 := by
  refine ⟨by decide, ?_⟩
  norm_num [AdBandit.pull, npGet]

/-- C6 amended: `pull` fails fast only for an arm index `≥ len(ctrs)` or
`< -len(ctrs)`; a negative index in `[-len(ctrs), 0)` wraps around
NumPy-style and returns a `0`/`1` reward. -/
theorem claim_C6_amended_pull_range (env : AdBandit) (arm : ℤ) (u : ℚ) :
    (((env.ctrs.length : ℤ) ≤ arm ∨ arm < -(env.ctrs.length : ℤ)) →
      env.pull arm u = none) ∧
    (-(env.ctrs.length : ℤ) ≤ arm → arm < 0 →
      ∃ r, env.pull arm u = some r ∧ (r = 0 ∨ r = 1)) := by
  constructor
  · intro h
    rw [AdBandit.pull, npGet]
    rcases h with h | h
    · rw [if_pos (by omega)]
      rw [List.get?_eq_none.mpr (by omega)]
      rfl
    · rw [if_neg (by omega), if_neg (by omega)]
      rfl
  · intro h1 h2
    have hlt : (arm + env.ctrs.length).toNat < env.ctrs.length := by omega
    have hget : env.ctrs.get? (arm + env.ctrs.length).toNat =
        some (env.ctrs.get ⟨_, hlt⟩) := List.get?_eq_some.mpr ⟨hlt, rfl⟩
    refine ⟨if u < env.ctrs.get ⟨_, hlt⟩ then 1 else 0, ?_, ?_⟩
    · rw [AdBandit.pull, npGet, if_neg (by omega), if_pos (by omega), hget]
      rfl
    · by_cases hu : u < env.ctrs.get ⟨_, hlt⟩
      · right; rw [if_pos hu]
      · left; rw [if_neg hu]

/-- Witness for the amended C6 on a one-arm environment: index `1` is an
`IndexError`, while index `-1` wraps and yields a reward. -/
theorem claim_C6_amended_pull_range_witness :
    AdBandit.pull ⟨["a"], [1]⟩ 1 0 = none ∧
    ∃ r, AdBandit.pull ⟨["a"], [1]⟩ (-1) 0 = some r ∧ (r = 0 ∨ r = 1) :=
  ⟨(claim_C6_amended_pull_range ⟨["a"], [1]⟩ 1 0).1 (by decide),
   (claim_C6_amended_pull_range ⟨["a"], [1]⟩ (-1) 0).2 (by decide)
     (by decide)⟩

/-- C10: for every in-range arm `a` and uniform draw `u ∈ [0, 1)`, `pull`
deterministically returns `0` when the arm's true probability is `0` and
`1` when it is `1` (the strict comparison `u < p` makes the boundary
probabilities deterministic). -/
theorem claim_C10_boundary_probabilities (env : AdBandit) (a : ℕ) (u p : ℚ)
    (hu0 : 0 ≤ u) (hu1 : u < 1) (hp : env.ctrs.get? a = some p) :
    (p = 0 → env.pull (a : ℤ) u = some 0) ∧
    (p = 1 → env.pull (a : ℤ) u = some 1) := by
  rw [AdBandit.pull, npGet_natCast, hp]
  constructor
  · rintro rfl
    rw [Option.map_some']
    rw [if_neg (by linarith)]
  · rintro rfl
    rw [Option.map_some']
    rw [if_pos hu1]

/-- Witness for C10 on a two-arm environment with probabilities `0` and
`1` and `u = 1/3`. -/
theorem claim_C10_boundary_probabilities_witness :
    AdBandit.pull ⟨["z", "o"], [0, 1]⟩ 0 (1/3) = some 0 ∧
    AdBandit.pull ⟨["z", "o"], [0, 1]⟩ 1 (1/3) = some 1 :=
  ⟨(claim_C10_boundary_probabilities ⟨["z", "o"], [0, 1]⟩ 0 (1/3) 0
      (by norm_num) (by norm_num) rfl).1 rfl,
   (claim_C10_boundary_probabilities ⟨["z", "o"], [0, 1]⟩ 1 (1/3) 1
      (by norm_num) (by norm_num) rfl).2 rfl⟩
